import Mathlib

/-!
Shallow embedding of the public status / uptime query engine
(`apps/api/src/routes/public.ts` in the repository; the interval algebra,
the observation-gap classifier, the freshness classifier, the fleet status
rollup and the uptime aggregator).

JavaScript numbers are embedded as rationals (`ℚ`): every arithmetic
operation performed by this code (addition, subtraction, `Math.max`,
`Math.min`, `Math.floor`, comparison, one exact division for the uptime
percentage) is exact on the values that occur, and `ℚ` keeps non-integer
values representable (the code never forces integrality).  `Number.isFinite`
is identically true in this embedding: a rational is always finite.
-/

namespace Uptimer

/-- `type Interval = { start: number; end: number }` (source line 135). -/
structure Interval where
  start : ℚ
  «end» : ℚ
deriving DecidableEq, Repr

/-- The TS union `'up' | 'down' | 'maintenance' | 'paused' | 'unknown'`
returned by `toMonitorStatus`. -/
inductive MonitorStatus
  | up
  | down
  | maintenance
  | paused
  | unknown
deriving DecidableEq, Repr

/-- The TS union `'up' | 'down' | 'maintenance' | 'unknown'` returned by
`toCheckStatus`. -/
inductive CheckStatus
  | up
  | down
  | maintenance
  | unknown
deriving DecidableEq, Repr

/-- `toMonitorStatus(value: string | null)` (source lines 143–154):
switch over the five known strings, defaulting to `'unknown'`. -/
def toMonitorStatus : Option String → MonitorStatus
  | some "up" => .up
  | some "down" => .down
  | some "maintenance" => .maintenance
  | some "paused" => .paused
  | some "unknown" => .unknown
  | _ => .unknown

/-- `toCheckStatus(value: string | null)` (source lines 156–166). -/
def toCheckStatus : Option String → CheckStatus
  | some "up" => .up
  | some "down" => .down
  | some "maintenance" => .maintenance
  | some "unknown" => .unknown
  | _ => .unknown

/-- Comparison key of `(a, b) => a.start - b.start` (source line 171). -/
def startLE (a b : Interval) : Prop := a.start ≤ b.start

instance : DecidableRel startLE := fun a b =>
  inferInstanceAs (Decidable (a.start ≤ b.start))

instance : IsTotal Interval startLE := ⟨fun a b => le_total a.start b.start⟩

instance : IsTrans Interval startLE := ⟨fun _ _ _ h₁ h₂ => le_trans h₁ h₂⟩

/-- `[...intervals].sort((a, b) => a.start - b.start)` (source line 171).
`Array.prototype.sort` is stable; a stable sort by `start` is exactly
insertion sort with the `startLE` preorder (insert before the first element
with a strictly larger key). -/
def sortByStart (l : List Interval) : List Interval := l.insertionSort startLE

/-- The fold body of `mergeIntervals` (source lines 175–192): `prev` is the
last element of the accumulated array, the only one the loop ever mutates;
`cur.start <= prev.end` extends it to `max(prev.end, cur.end)`, otherwise
`prev` is committed and `cur` becomes the new open interval. -/
def mergeRun (prev : Interval) : List Interval → List Interval
  | [] => [prev]
  | cur :: rest =>
      if cur.start ≤ prev.«end» then
        mergeRun ⟨prev.start, max prev.«end» cur.«end»⟩ rest
      else
        prev :: mergeRun cur rest

/-- `mergeIntervals` (source lines 168–195).  The `!first` and `!prev`
guards in the source are dead (the arrays are non-empty at those points)
and have no counterpart here. -/
def mergeIntervals (intervals : List Interval) : List Interval :=
  match sortByStart intervals with
  | [] => []
  | first :: rest => mergeRun ⟨first.start, first.«end»⟩ rest

/-- `sumIntervals` (source lines 197–199):
`reduce((acc, it) => acc + Math.max(0, it.end - it.start), 0)`. -/
def sumIntervals (intervals : List Interval) : ℚ :=
  intervals.foldl (fun acc it => acc + max 0 (it.«end» - it.start)) 0

/-- `overlapSeconds` (source lines 201–225): two-pointer sweep; each step
adds the positive part of `min(ends) - max(starts)` and advances the
pointer whose interval ends first (`a` on ties, `x.end <= y.end`). -/
def overlapSeconds : List Interval → List Interval → ℚ
  | [], _ => 0
  | _ :: _, [] => 0
  | x :: a, y :: b =>
      (if max x.start y.start < min x.«end» y.«end» then
        min x.«end» y.«end» - max x.start y.start
      else 0) +
      if x.«end» ≤ y.«end» then overlapSeconds a (y :: b)
      else overlapSeconds (x :: a) b
termination_by a b => a.length + b.length

/-- `ensureInterval` (source lines 227–231).  The `Number.isFinite` test is
identically true on `ℚ`; the surviving condition is `end <= start ⇒ null`. -/
def ensureInterval (interval : Interval) : Option Interval :=
  if interval.«end» ≤ interval.start then none else some interval

/-- `pushMergedInterval` (source lines 233–240): coalesce with the last
element of the in-construction array when `next.start <= last.end`, else
append. -/
def pushMergedInterval (intervals : List Interval) (next : Interval) : List Interval :=
  match intervals.getLast? with
  | some last =>
      if next.start ≤ last.«end» then
        intervals.dropLast ++ [⟨last.start, max last.«end» next.«end»⟩]
      else
        intervals ++ [next]
  | none => intervals ++ [next]

/-- A check as consumed by `buildUnknownIntervals`
(`{ checked_at: number; status: string }`); the route handlers coerce the
raw status through `toCheckStatus` before calling it, so the status field
is the closed `CheckStatus` union. -/
structure Check where
  checked_at : ℚ
  status : CheckStatus
deriving DecidableEq, Repr

/-- `addUnknown` inside `buildUnknownIntervals` (source lines 258–262). -/
def addUnknown (unknown : List Interval) (f t : ℚ) : List Interval :=
  match ensureInterval ⟨f, t⟩ with
  | none => unknown
  | some it => pushMergedInterval unknown it

/-- `processSegment` inside `buildUnknownIntervals` (source lines 264–288).
The check's verdict applies on `[checked_at, checked_at + intervalSec)`;
beyond `validUntil` the segment is unknown. -/
def processSegment (intervalSec : ℚ) (lastCheck : Option Check)
    (unknown : List Interval) (segStart segEnd : ℚ) : List Interval :=
  if segEnd ≤ segStart then unknown
  else
    match lastCheck with
    | none => addUnknown unknown segStart segEnd
    | some lc =>
        let validUntil := lc.checked_at + intervalSec
        if validUntil ≤ segStart then addUnknown unknown segStart segEnd
        else
          let coveredEnd := min segEnd validUntil
          let u1 :=
            if lc.status = CheckStatus.unknown then
              addUnknown unknown segStart coveredEnd
            else unknown
          if coveredEnd < segEnd then addUnknown u1 coveredEnd segEnd else u1

/-- The `for (const check of checks)` loop of `buildUnknownIntervals`
(source lines 290–305), including the trailing
`processSegment(cursor, rangeEnd)`: checks before the range only update
`lastCheck` (carry-over); a check at or past `rangeEnd` breaks the loop;
otherwise the segment `[cursor, checked_at)` is classified and the cursor
advances. -/
def buildLoop (rangeStart rangeEnd intervalSec : ℚ) :
    List Check → Option Check → ℚ → List Interval → List Interval
  | [], lastCheck, cursor, unknown =>
      processSegment intervalSec lastCheck unknown cursor rangeEnd
  | check :: rest, lastCheck, cursor, unknown =>
      if check.checked_at < rangeStart then
        buildLoop rangeStart rangeEnd intervalSec rest (some check) cursor unknown
      else if rangeEnd ≤ check.checked_at then
        processSegment intervalSec lastCheck unknown cursor rangeEnd
      else
        buildLoop rangeStart rangeEnd intervalSec rest (some check) check.checked_at
          (processSegment intervalSec lastCheck unknown cursor check.checked_at)

/-- `buildUnknownIntervals` (source lines 242–306).  The degenerate guard in
the source is `!Number.isFinite(intervalSec) || intervalSec <= 0`; on `ℚ`
the finiteness test is identically true, leaving `intervalSec ≤ 0`. -/
def buildUnknownIntervals (rangeStart rangeEnd intervalSec : ℚ)
    (checks : List Check) : List Interval :=
  if rangeEnd ≤ rangeStart then []
  else if intervalSec ≤ 0 then [⟨rangeStart, rangeEnd⟩]
  else buildLoop rangeStart rangeEnd intervalSec checks none rangeStart []

/-- The `range` query enum of `/monitors/:id/uptime`
(`z.enum(['24h', '7d', '30d'])`, source line 141). -/
inductive UptimeRange
  | h24
  | d7
  | d30
deriving DecidableEq, Repr

/-- `rangeToSeconds` (source lines 308–321). -/
def rangeToSeconds : UptimeRange → ℚ
  | .h24 => 24 * 60 * 60
  | .d7 => 7 * 24 * 60 * 60
  | .d30 => 30 * 24 * 60 * 60

/-- `PublicStatusMonitorRow` (source lines 118–126): one row of the
monitors ⟕ monitor_state query. -/
structure PublicStatusMonitorRow where
  id : ℤ
  name : String
  type : String
  interval_sec : ℚ
  state_status : Option String
  last_checked_at : Option ℚ
  last_latency_ms : Option ℚ

/-- One element of the `monitors` array of the `/status` response
(source lines 366–375; the `heartbeats` array is irrelevant to the claims
and omitted). -/
structure StatusMonitorEntry where
  id : ℤ
  name : String
  type : String
  status : MonitorStatus
  is_stale : Bool
  last_checked_at : Option ℚ
  last_latency_ms : Option ℚ

/-- The per-row body of the `/status` monitor map (source lines 352–376):
the freshness classifier plus the field projection.  Paused / maintenance
rows are never stale; otherwise a null `last_checked_at` is stale, and a
non-null one is stale iff `now - last_checked_at > interval_sec * 2`.
A stale row is exposed as `unknown` with `last_latency_ms` nulled. -/
def statusEntry (now : ℚ) (r : PublicStatusMonitorRow) : StatusMonitorEntry :=
  let stateStatus := toMonitorStatus r.state_status
  let isStale : Bool :=
    if stateStatus = MonitorStatus.paused ∨ stateStatus = MonitorStatus.maintenance then
      false
    else
      match r.last_checked_at with
      | none => true
      | some t => decide (r.interval_sec * 2 < now - t)
  { id := r.id
    name := r.name
    type := r.type
    status := if isStale then MonitorStatus.unknown else stateStatus
    is_stale := isStale
    last_checked_at := r.last_checked_at
    last_latency_ms := if isStale then none else r.last_latency_ms }

/-- The `counts` record of the `/status` handler (source line 378). -/
structure Counts where
  up : ℕ
  down : ℕ
  maintenance : ℕ
  paused : ℕ
  unknown : ℕ
deriving DecidableEq, Repr

/-- `counts[m.status]++` for a single row (source line 380). -/
def bumpCount (c : Counts) : MonitorStatus → Counts
  | .up => { c with up := c.up + 1 }
  | .down => { c with down := c.down + 1 }
  | .maintenance => { c with maintenance := c.maintenance + 1 }
  | .paused => { c with paused := c.paused + 1 }
  | .unknown => { c with unknown := c.unknown + 1 }

/-- The tally loop `for (const m of monitorsList) counts[m.status]++`
(source lines 378–381). -/
def tallyCounts (entries : List StatusMonitorEntry) : Counts :=
  entries.foldl (fun c m => bumpCount c m.status) ⟨0, 0, 0, 0, 0⟩

/-- The `overall_status` conditional chain (source lines 383–394). -/
def overallStatus (counts : Counts) : MonitorStatus :=
  if 0 < counts.down then .down
  else if 0 < counts.unknown then .unknown
  else if 0 < counts.maintenance then .maintenance
  else if 0 < counts.up then .up
  else if 0 < counts.paused then .paused
  else .unknown

/-- The `/status` response document (source lines 437–442; heartbeats
omitted). -/
structure StatusResponse where
  generated_at : ℚ
  overall_status : MonitorStatus
  summary : Counts
  monitors : List StatusMonitorEntry

/-- The pure part of the `/status` handler (source lines 330–443): map each
row through the freshness classifier, tally, roll up. -/
def statusResponse (now : ℚ) (rows : List PublicStatusMonitorRow) : StatusResponse :=
  let monitorsList := rows.map (statusEntry now)
  let counts := tallyCounts monitorsList
  { generated_at := now
    overall_status := overallStatus counts
    summary := counts
    monitors := monitorsList }

/-- `type OutageRow = { started_at: number; ended_at: number | null }`
(source line 504). -/
structure OutageRow where
  started_at : ℚ
  ended_at : Option ℚ

/-- One row of the uptime handler's check query
(`{ checked_at: number; status: string }`, source line 567; the status
string may be anything, `toCheckStatus` normalizes it). -/
structure CheckRow where
  checked_at : ℚ
  status : Option String

/-- The numeric fields of the `/monitors/:id/uptime` response
(source lines 583–593). -/
structure UptimeResponse where
  range_start_at : ℚ
  range_end_at : ℚ
  total_sec : ℚ
  downtime_sec : ℚ
  unknown_sec : ℚ
  uptime_sec : ℚ
  uptime_pct : ℚ

/-- The pure part of the `/monitors/:id/uptime` handler
(source lines 524–593), parameterized by the monitor's `created_at` and
`interval_sec`, the clock, the validated range keyword, and the two query
result sets.  `rangeEnd = Math.floor(now / 60) * 60`; the range start is
clamped to `created_at`; outages are clamped to the range, filtered and
merged; unknown time is the gap classifier's output minus its overlap with
downtime; unavailable time is capped at the range length. -/
def uptimeHandler (now created_at interval_sec : ℚ) (range : UptimeRange)
    (outageRows : List OutageRow) (checkRows : List CheckRow) : UptimeResponse :=
  let rangeEnd : ℚ := (⌊now / 60⌋ : ℤ) * 60
  let requestedRangeStart := rangeEnd - rangeToSeconds range
  let rangeStart := max requestedRangeStart created_at
  let total_sec := max 0 (rangeEnd - rangeStart)
  let downtimeIntervals := mergeIntervals
    ((outageRows.map (fun r =>
        ({ start := max r.started_at rangeStart
           «end» := min (r.ended_at.getD rangeEnd) rangeEnd } : Interval))).filter
      (fun it => decide (it.start < it.«end»)))
  let downtime_sec := sumIntervals downtimeIntervals
  let unknownIntervals := buildUnknownIntervals rangeStart rangeEnd interval_sec
    (checkRows.map (fun r =>
      ({ checked_at := r.checked_at, status := toCheckStatus r.status } : Check)))
  let unknown_sec :=
    max 0 (sumIntervals unknownIntervals - overlapSeconds unknownIntervals downtimeIntervals)
  let unavailable_sec := min total_sec (downtime_sec + unknown_sec)
  let uptime_sec := max 0 (total_sec - unavailable_sec)
  let uptime_pct := if total_sec = 0 then 0 else uptime_sec / total_sec * 100
  { range_start_at := rangeStart
    range_end_at := rangeEnd
    total_sec := total_sec
    downtime_sec := downtime_sec
    unknown_sec := unknown_sec
    uptime_sec := uptime_sec
    uptime_pct := uptime_pct }



/-! ## Equational helpers -/


theorem pushMergedInterval_nil (next : Interval) : pushMergedInterval [] next = [next] := rfl

theorem pushMergedInterval_singleton (x next : Interval) :
    pushMergedInterval [x] next =
      if next.start ≤ x.«end» then [⟨x.start, max x.«end» next.«end»⟩] else [x, next] := by
  simp [pushMergedInterval]

theorem pushMergedInterval_cons_cons (x y : Interval) (l : List Interval) (next : Interval) :
    pushMergedInterval (x :: y :: l) next = x :: pushMergedInterval (y :: l) next := by
  obtain ⟨g, hg⟩ := Option.isSome_iff_exists.mp (List.getLast?_isSome.mpr (List.cons_ne_nil y l))
  simp [pushMergedInterval, List.getLast?_cons_cons, hg]
  split <;> simp

theorem addUnknown_eq (unknown : List Interval) (f t : ℚ) :
    addUnknown unknown f t =
      if t ≤ f then unknown else pushMergedInterval unknown ⟨f, t⟩ := by
  unfold addUnknown ensureInterval
  by_cases h : t ≤ f
  · simp [h]
  · simp [h]

theorem up_eq_unknown_false : (CheckStatus.up = CheckStatus.unknown) = False := by
  simp only [reduceCtorEq]

/-- Strict separation: the relation holding between consecutive elements of
a merged interval set (no touching, no overlap). -/
def sep (p q : Interval) : Prop := p.«end» < q.start

theorem mergeRun_head_start (prev : Interval) (l : List Interval) :
    ∃ e rest, mergeRun prev l = ⟨prev.start, e⟩ :: rest := by
  induction l generalizing prev with
  | nil => exact ⟨prev.«end», [], rfl⟩
  | cons cur rest ih =>
    by_cases h : cur.start ≤ prev.«end»
    · simpa [mergeRun, h] using ih ⟨prev.start, max prev.«end» cur.«end»⟩
    · exact ⟨prev.«end», mergeRun cur rest, by simp [mergeRun, h]⟩

theorem mergeRun_chain (prev : Interval) (l : List Interval) :
    List.Chain' sep (mergeRun prev l) := by
  induction l generalizing prev with
  | nil => simp [mergeRun]
  | cons cur rest ih =>
    by_cases h : cur.start ≤ prev.«end»
    · simpa [mergeRun, h] using ih ⟨prev.start, max prev.«end» cur.«end»⟩
    · obtain ⟨e, t, ht⟩ := mergeRun_head_start cur rest
      rw [mergeRun, if_neg h, List.chain'_cons', ht]
      refine ⟨fun y hy => ?_, ht ▸ ih cur⟩
      simp only [List.head?_cons, Option.mem_def, Option.some.injEq] at hy
      subst hy
      exact lt_of_not_le h

theorem mergeRun_starts (prev : Interval) (l : List Interval)
    (hs : List.Pairwise startLE l) (hp : ∀ it ∈ l, prev.start ≤ it.start) :
    List.Chain' startLE (mergeRun prev l) := by
  induction l generalizing prev with
  | nil => simp [mergeRun]
  | cons cur rest ih =>
    by_cases h : cur.start ≤ prev.«end»
    · simpa [mergeRun, h] using
        ih ⟨prev.start, max prev.«end» cur.«end»⟩ hs.of_cons
          (fun it hit => hp it (List.mem_cons_of_mem _ hit))
    · obtain ⟨e, t, ht⟩ := mergeRun_head_start cur rest
      rw [mergeRun, if_neg h, List.chain'_cons', ht]
      refine ⟨fun y hy => ?_, ht ▸ ih cur hs.of_cons (fun it hit => ?_)⟩
      · simp only [List.head?_cons, Option.mem_def, Option.some.injEq] at hy
        subst hy
        exact hp cur (List.mem_cons_self _ _)
      · exact List.rel_of_pairwise_cons hs hit

theorem mergeRun_of_chain (prev : Interval) (l : List Interval)
    (h : List.Chain' sep (prev :: l)) : mergeRun prev l = prev :: l := by
  induction l generalizing prev with
  | nil => rfl
  | cons cur rest ih =>
    have h1 : sep prev cur := List.chain'_cons.mp h |>.1
    have h2 : ¬ cur.start ≤ prev.«end» := not_le.mpr h1
    rw [mergeRun, if_neg h2, ih cur (List.chain'_cons.mp h).2]

theorem mergeRun_mem_bounds (lo hi : ℚ) (prev : Interval) (l : List Interval)
    (hprev : lo ≤ prev.start ∧ prev.start < prev.«end» ∧ prev.«end» ≤ hi)
    (hl : ∀ it ∈ l, lo ≤ it.start ∧ it.start < it.«end» ∧ it.«end» ≤ hi) :
    ∀ it ∈ mergeRun prev l, lo ≤ it.start ∧ it.start < it.«end» ∧ it.«end» ≤ hi := by
  induction l generalizing prev with
  | nil => simpa [mergeRun] using hprev
  | cons cur rest ih =>
    by_cases h : cur.start ≤ prev.«end»
    · rw [mergeRun, if_pos h]
      refine ih ⟨prev.start, max prev.«end» cur.«end»⟩
        ⟨hprev.1, lt_of_lt_of_le hprev.2.1 (le_max_left _ _), ?_⟩
        (fun it hit => hl it (List.mem_cons_of_mem _ hit))
      exact max_le hprev.2.2 (hl cur (List.mem_cons_self _ _)).2.2
    · rw [mergeRun, if_neg h]
      intro it hit
      rcases List.mem_cons.mp hit with rfl | hit
      · exact hprev
      · exact ih cur (hl cur (List.mem_cons_self _ _))
          (fun x hx => hl x (List.mem_cons_of_mem _ hx)) it hit

theorem mergeIntervals_chain (xs : List Interval) :
    List.Chain' sep (mergeIntervals xs) := by
  unfold mergeIntervals
  cases sortByStart xs with
  | nil => simp
  | cons first rest => exact mergeRun_chain _ _

theorem mergeIntervals_starts (xs : List Interval) :
    List.Chain' startLE (mergeIntervals xs) := by
  unfold mergeIntervals
  have hs : List.Pairwise startLE (sortByStart xs) :=
    List.sorted_insertionSort startLE xs
  cases h : sortByStart xs with
  | nil => simp
  | cons first rest =>
    rw [h] at hs
    exact mergeRun_starts _ _ hs.of_cons (fun it hit => List.rel_of_pairwise_cons hs hit)

theorem mergeIntervals_idem (xs : List Interval) :
    mergeIntervals (mergeIntervals xs) = mergeIntervals xs := by
  have hsorted : List.Sorted startLE (mergeIntervals xs) :=
    (List.chain'_iff_pairwise).mp (mergeIntervals_starts xs)
  have hchain := mergeIntervals_chain xs
  conv_lhs => rw [mergeIntervals]
  rw [show sortByStart (mergeIntervals xs) = mergeIntervals xs from
    hsorted.insertionSort_eq]
  cases h : mergeIntervals xs with
  | nil => rfl
  | cons first rest =>
    rw [h] at hchain
    exact mergeRun_of_chain first rest hchain

theorem mergeIntervals_properChainIn (lo hi : ℚ) (xs : List Interval)
    (hxs : ∀ it ∈ xs, lo ≤ it.start ∧ it.start < it.«end» ∧ it.«end» ≤ hi) :
    (∀ it ∈ mergeIntervals xs, lo ≤ it.start ∧ it.start < it.«end» ∧ it.«end» ≤ hi) ∧
    List.Chain' sep (mergeIntervals xs) := by
  refine ⟨?_, mergeIntervals_chain xs⟩
  unfold mergeIntervals
  have hmem : ∀ it ∈ sortByStart xs, lo ≤ it.start ∧ it.start < it.«end» ∧ it.«end» ≤ hi :=
    fun it hit => hxs it ((List.mem_insertionSort startLE).mp hit)
  cases h : sortByStart xs with
  | nil => simp
  | cons first rest =>
    rw [h] at hmem
    exact mergeRun_mem_bounds lo hi _ _ (hmem first (List.mem_cons_self _ _))
      (fun it hit => hmem it (List.mem_cons_of_mem _ hit))

theorem foldl_add_eq (f : Interval → ℚ) (a : ℚ) (l : List Interval) :
    List.foldl (fun acc it => acc + f it) a l = a + (l.map f).sum := by
  induction l generalizing a with
  | nil => simp
  | cons x t ih => simp [ih]; ring

theorem sumIntervals_eq (l : List Interval) :
    sumIntervals l = (l.map fun it => max 0 (it.«end» - it.start)).sum := by
  unfold sumIntervals
  rw [foldl_add_eq]
  simp

theorem sumIntervals_nonneg (l : List Interval) : 0 ≤ sumIntervals l := by
  rw [sumIntervals_eq]
  refine List.sum_nonneg ?_
  intro x hx
  simp only [List.mem_map] at hx
  obtain ⟨it, _, rfl⟩ := hx
  exact le_max_left _ _

theorem sumIntervals_cons (x : Interval) (l : List Interval) :
    sumIntervals (x :: l) = max 0 (x.«end» - x.start) + sumIntervals l := by
  rw [sumIntervals_eq, sumIntervals_eq, List.map_cons, List.sum_cons]

/-- length of the intersection of two intervals. -/
def interLen (x y : Interval) : ℚ :=
  max 0 (min x.«end» y.«end» - max x.start y.start)

/-- sum of intersection lengths of one interval against a list. -/
def rowOverlap (x : Interval) (b : List Interval) : ℚ :=
  (b.map (interLen x)).sum

/-- sum of all pairwise intersection lengths of two lists. -/
def pairwiseOverlap (a b : List Interval) : ℚ :=
  (a.map fun x => rowOverlap x b).sum

theorem interLen_comm (x y : Interval) : interLen x y = interLen y x := by
  unfold interLen
  rw [min_comm, max_comm x.start y.start]

theorem interLen_of_le (x y : Interval) (h : x.«end» ≤ y.start) : interLen x y = 0 := by
  unfold interLen
  have : min x.«end» y.«end» - max x.start y.start ≤ 0 := by
    have h1 : min x.«end» y.«end» ≤ x.«end» := min_le_left _ _
    have h2 : y.start ≤ max x.start y.start := le_max_right _ _
    linarith
  exact max_eq_left this

theorem rowOverlap_nil (x : Interval) : rowOverlap x [] = 0 := rfl

theorem rowOverlap_cons (x y : Interval) (b : List Interval) :
    rowOverlap x (y :: b) = interLen x y + rowOverlap x b := by
  unfold rowOverlap
  rw [List.map_cons, List.sum_cons]

theorem rowOverlap_eq_zero (x : Interval) (b : List Interval)
    (h : ∀ y ∈ b, x.«end» ≤ y.start) : rowOverlap x b = 0 := by
  unfold rowOverlap
  refine List.sum_eq_zero ?_
  intro v hv
  simp only [List.mem_map] at hv
  obtain ⟨y, hy, rfl⟩ := hv
  exact interLen_of_le x y (h y hy)

theorem pairwiseOverlap_nil_left (b : List Interval) : pairwiseOverlap [] b = 0 := rfl

theorem pairwiseOverlap_nil_right (a : List Interval) : pairwiseOverlap a [] = 0 := by
  unfold pairwiseOverlap
  refine List.sum_eq_zero ?_
  intro v hv
  simp only [List.mem_map] at hv
  obtain ⟨x, _, rfl⟩ := hv
  rfl

theorem pairwiseOverlap_cons_left (x : Interval) (a b : List Interval) :
    pairwiseOverlap (x :: a) b = rowOverlap x b + pairwiseOverlap a b := by
  unfold pairwiseOverlap
  rw [List.map_cons, List.sum_cons]

theorem pairwiseOverlap_cons_right (a : List Interval) (y : Interval) (b : List Interval) :
    pairwiseOverlap a (y :: b) = (a.map fun x => interLen x y).sum + pairwiseOverlap a b := by
  induction a with
  | nil => simp [pairwiseOverlap_nil_left]
  | cons x t ih =>
    rw [pairwiseOverlap_cons_left, rowOverlap_cons, ih, pairwiseOverlap_cons_left,
      List.map_cons, List.sum_cons]
    ring

theorem pairwiseOverlap_comm (a b : List Interval) :
    pairwiseOverlap a b = pairwiseOverlap b a := by
  induction a with
  | nil => rw [pairwiseOverlap_nil_left, pairwiseOverlap_nil_right]
  | cons x t ih =>
    rw [pairwiseOverlap_cons_left, pairwiseOverlap_cons_right, ih]
    congr 1
    unfold rowOverlap
    refine congrArg List.sum (List.map_congr_left ?_)
    intro y _
    exact interLen_comm x y

theorem overlapSeconds_nil_left (b : List Interval) : overlapSeconds [] b = 0 := by
  rw [overlapSeconds]

theorem overlapSeconds_nil_right (a : List Interval) : overlapSeconds a [] = 0 := by
  cases a with
  | nil => rw [overlapSeconds]
  | cons x t => rw [overlapSeconds]

theorem overlapSeconds_cons_cons (x y : Interval) (a b : List Interval) :
    overlapSeconds (x :: a) (y :: b) =
      interLen x y +
        if x.«end» ≤ y.«end» then overlapSeconds a (y :: b) else overlapSeconds (x :: a) b := by
  rw [overlapSeconds]
  congr 1
  unfold interLen
  rcases le_or_lt (min x.«end» y.«end» - max x.start y.start) 0 with h | h
  · rw [if_neg (by linarith), max_eq_left h]
  · rw [if_pos (by linarith), max_eq_right (le_of_lt h)]

theorem chain_sep_bound (x : Interval) (l : List Interval)
    (hch : List.Chain' sep (x :: l)) (hw : ∀ it ∈ l, it.start ≤ it.«end») :
    ∀ it ∈ l, x.«end» < it.start := by
  induction l generalizing x with
  | nil => simp
  | cons y t ih =>
    have h1 : sep x y := (List.chain'_cons.mp hch).1
    have h2 : List.Chain' sep (y :: t) := (List.chain'_cons.mp hch).2
    intro it hit
    rcases List.mem_cons.mp hit with rfl | hit
    · exact h1
    · have hy : y.start ≤ y.«end» := hw y (List.mem_cons_self _ _)
      have := ih y h2 (fun z hz => hw z (List.mem_cons_of_mem _ hz)) it hit
      calc x.«end» < y.start := h1
        _ ≤ y.«end» := hy
        _ < it.start := this

theorem sum_le_of_chain (hi : ℚ) : ∀ (l : List Interval) (lo : ℚ), lo ≤ hi →
    (∀ it ∈ l, lo ≤ it.start ∧ it.start ≤ it.«end» ∧ it.«end» ≤ hi) →
    List.Chain' sep l → sumIntervals l ≤ hi - lo := by
  intro l
  induction l with
  | nil =>
    intro lo hlohi _ _
    rw [show sumIntervals [] = 0 from rfl]
    linarith
  | cons x t ih =>
    intro lo hlohi hmem hch
    have hx := hmem x (List.mem_cons_self _ _)
    have hxa : max 0 (x.«end» - x.start) = x.«end» - x.start :=
      max_eq_right (by linarith [hx.2.1])
    have hbound := chain_sep_bound x t hch
      (fun it hit => (hmem it (List.mem_cons_of_mem _ hit)).2.1)
    have ht : sumIntervals t ≤ hi - x.«end» := by
      refine ih x.«end» hx.2.2 (fun it hit => ?_) hch.tail
      exact ⟨le_of_lt (hbound it hit), (hmem it (List.mem_cons_of_mem _ hit)).2.1,
        (hmem it (List.mem_cons_of_mem _ hit)).2.2⟩
    rw [sumIntervals_cons, hxa]
    have := hx.1
    linarith

theorem overlap_eq_pairwise : ∀ (n : ℕ) (a b : List Interval), a.length + b.length ≤ n →
    (∀ it ∈ a, it.start ≤ it.«end») → List.Chain' sep a →
    (∀ it ∈ b, it.start ≤ it.«end») → List.Chain' sep b →
    overlapSeconds a b = pairwiseOverlap a b := by
  intro n
  induction n with
  | zero =>
    intro a b hlen _ _ _ _
    have ha : a = [] := List.eq_nil_of_length_eq_zero (by omega)
    subst ha
    rw [overlapSeconds_nil_left, pairwiseOverlap_nil_left]
  | succ n ih =>
    intro a b hlen hwa hca hwb hcb
    cases a with
    | nil => rw [overlapSeconds_nil_left, pairwiseOverlap_nil_left]
    | cons x a' =>
      cases b with
      | nil => rw [overlapSeconds_nil_right, pairwiseOverlap_nil_right]
      | cons y b' =>
        rw [overlapSeconds_cons_cons]
        by_cases hc : x.«end» ≤ y.«end»
        · have hzero : rowOverlap x b' = 0 := by
            refine rowOverlap_eq_zero x b' (fun z hz => ?_)
            have := chain_sep_bound y b' hcb
              (fun it hit => hwb it (List.mem_cons_of_mem _ hit)) z hz
            linarith
          rw [if_pos hc, ih a' (y :: b') (by simp at hlen ⊢; omega)
            (fun it hit => hwa it (List.mem_cons_of_mem _ hit)) hca.tail hwb hcb,
            pairwiseOverlap_cons_left, rowOverlap_cons, hzero]
          ring
        · have hzero : (a'.map fun z => interLen z y).sum = 0 := by
            refine List.sum_eq_zero ?_
            intro v hv
            simp only [List.mem_map] at hv
            obtain ⟨z, hz, rfl⟩ := hv
            have := chain_sep_bound x a' hca
              (fun it hit => hwa it (List.mem_cons_of_mem _ hit)) z hz
            rw [interLen_comm]
            refine interLen_of_le y z ?_
            push_neg at hc
            linarith
          rw [if_neg hc, ih (x :: a') b' (by simp at hlen ⊢; omega)
            hwa hca (fun it hit => hwb it (List.mem_cons_of_mem _ hit)) hcb.tail,
            pairwiseOverlap_cons_right, pairwiseOverlap_cons_left, List.map_cons,
            List.sum_cons, hzero]
          ring

theorem interLen_clamp (z y : Interval) (c : ℚ) (h : c ≤ z.start) :
    interLen z ⟨max y.start c, y.«end»⟩ = interLen z y := by
  unfold interLen
  have hm : max z.start (max y.start c) = max z.start y.start := by
    rw [max_comm y.start c, ← max_assoc, max_eq_left h]
  simp only [hm]

theorem key_ineq (lo xs xe ys ye : ℚ) (h1 : lo ≤ xs) (h2 : lo ≤ ys) (h3 : xs ≤ xe)
    (h4 : ys ≤ ye) (h5 : xe ≤ ye) :
    (xe - xs) + (ye - ys) - max 0 (min xe ye - max xs ys) - (ye - max ys xe) ≤ xe - lo := by
  rw [min_eq_left h5]
  rcases le_total xs ys with hB | hB
  · rcases le_total ys xe with hA | hA
    · rw [max_eq_right hB, max_eq_right hA,
        max_eq_right (by linarith : (0:ℚ) ≤ xe - ys)]
      linarith
    · rw [max_eq_right hB, max_eq_left hA,
        max_eq_left (by linarith : xe - ys ≤ (0:ℚ))]
      linarith
  · rw [max_eq_left hB, max_eq_right (by linarith : ys ≤ xe),
      max_eq_right (by linarith : (0:ℚ) ≤ xe - xs)]
    linarith

theorem union_bound (hi : ℚ) : ∀ (n : ℕ) (a b : List Interval) (lo : ℚ),
    a.length + b.length ≤ n → lo ≤ hi →
    (∀ it ∈ a, lo ≤ it.start ∧ it.start ≤ it.«end» ∧ it.«end» ≤ hi) → List.Chain' sep a →
    (∀ it ∈ b, lo ≤ it.start ∧ it.start ≤ it.«end» ∧ it.«end» ≤ hi) → List.Chain' sep b →
    sumIntervals a + sumIntervals b - pairwiseOverlap a b ≤ hi - lo := by
  intro n
  induction n with
  | zero =>
    intro a b lo hlen hlohi _ _ _ _
    have ha : a = [] := List.eq_nil_of_length_eq_zero (by omega)
    have hb : b = [] := List.eq_nil_of_length_eq_zero (by omega)
    subst ha; subst hb
    rw [pairwiseOverlap_nil_left]
    show (0:ℚ) + 0 - 0 ≤ hi - lo
    linarith
  | succ n ih =>
    intro a b lo hlen hlohi hma hca hmb hcb
    cases a with
    | nil =>
      rw [pairwiseOverlap_nil_left]
      have := sum_le_of_chain hi b lo hlohi hmb hcb
      rw [show sumIntervals [] = 0 from rfl]
      linarith
    | cons x a' =>
      cases b with
      | nil =>
        rw [pairwiseOverlap_nil_right]
        have := sum_le_of_chain hi (x :: a') lo hlohi hma hca
        rw [show sumIntervals [] = 0 from rfl]
        linarith
      | cons y b' =>
        have hax := hma x (List.mem_cons_self _ _)
        have hay := hmb y (List.mem_cons_self _ _)
        have hpropA : ∀ it ∈ a', x.«end» < it.start :=
          chain_sep_bound x a' hca
            (fun it hit => (hma it (List.mem_cons_of_mem _ hit)).2.1)
        have hpropB : ∀ it ∈ b', y.«end» < it.start :=
          chain_sep_bound y b' hcb
            (fun it hit => (hmb it (List.mem_cons_of_mem _ hit)).2.1)
        have hsx : sumIntervals (x :: a') = (x.«end» - x.start) + sumIntervals a' := by
          rw [sumIntervals_cons, max_eq_right (by linarith [hax.2.1] : (0:ℚ) ≤ x.«end» - x.start)]
        have hsy : sumIntervals (y :: b') = (y.«end» - y.start) + sumIntervals b' := by
          rw [sumIntervals_cons, max_eq_right (by linarith [hay.2.1] : (0:ℚ) ≤ y.«end» - y.start)]
        by_cases hc : x.«end» ≤ y.«end»
        · -- advance-a case: clamp y from below at x.end
          set y' : Interval := ⟨max y.start x.«end», y.«end»⟩ with hy'
          have hrow : rowOverlap x b' = 0 :=
            rowOverlap_eq_zero x b' (fun z hz => by linarith [hpropB z hz])
          have hclamp : pairwiseOverlap a' (y :: b') = pairwiseOverlap a' (y' :: b') := by
            rw [pairwiseOverlap_cons_right, pairwiseOverlap_cons_right]
            congr 1
            refine congrArg List.sum (List.map_congr_left ?_)
            intro z hz
            rw [hy', interLen_clamp z y x.«end» (le_of_lt (hpropA z hz))]
          have hpw : pairwiseOverlap (x :: a') (y :: b') =
              interLen x y + pairwiseOverlap a' (y' :: b') := by
            rw [pairwiseOverlap_cons_left, rowOverlap_cons, hrow, ← hclamp]
            ring
          have hIH : sumIntervals a' + sumIntervals (y' :: b') -
              pairwiseOverlap a' (y' :: b') ≤ hi - x.«end» := by
            refine ih a' (y' :: b') x.«end» ?_ hax.2.2 ?_ hca.tail ?_ ?_
            · simp only [List.length_cons] at hlen ⊢
              omega
            · intro it hit
              exact ⟨le_of_lt (hpropA it hit), (hma it (List.mem_cons_of_mem _ hit)).2.1,
                (hma it (List.mem_cons_of_mem _ hit)).2.2⟩
            · intro it hit
              rcases List.mem_cons.mp hit with rfl | hit
              · exact ⟨le_max_right _ _, max_le hay.2.1 hc, hay.2.2⟩
              · exact ⟨by linarith [hpropB it hit],
                  (hmb it (List.mem_cons_of_mem _ hit)).2.1,
                  (hmb it (List.mem_cons_of_mem _ hit)).2.2⟩
            · refine List.chain'_cons'.mpr ⟨fun z hz => ?_, hcb.tail⟩
              have := (List.chain'_cons'.mp hcb).1 z hz
              exact this
          have hsy' : sumIntervals (y' :: b') =
              (y.«end» - max y.start x.«end») + sumIntervals b' := by
            rw [hy', sumIntervals_cons]
            have hh : (0:ℚ) ≤ y.«end» - max y.start x.«end» := by
              have := max_le hay.2.1 hc
              linarith
            dsimp only
            rw [max_eq_right hh]
          have hkey := key_ineq lo x.start x.«end» y.start y.«end» hax.1 hay.1 hax.2.1 hay.2.1 hc
          rw [hsx, hsy, hpw]
          rw [hsy'] at hIH
          simp only [interLen] at hkey ⊢
          linarith
        · -- advance-b case: clamp x from below at y.end
          push_neg at hc
          set x' : Interval := ⟨max x.start y.«end», x.«end»⟩ with hx'
          have hcol : (a'.map fun z => interLen z y).sum = 0 := by
            refine List.sum_eq_zero ?_
            intro v hv
            simp only [List.mem_map] at hv
            obtain ⟨z, hz, rfl⟩ := hv
            rw [interLen_comm]
            exact interLen_of_le y z (by linarith [hpropA z hz])
          have hclamp : rowOverlap x b' = rowOverlap x' b' := by
            unfold rowOverlap
            refine congrArg List.sum (List.map_congr_left ?_)
            intro w hw
            rw [hx', interLen_comm x w,
              interLen_comm (⟨max x.start y.«end», x.«end»⟩ : Interval) w,
              interLen_clamp w x y.«end» (le_of_lt (hpropB w hw))]
          have hpw : pairwiseOverlap (x :: a') (y :: b') =
              interLen x y + pairwiseOverlap (x' :: a') b' := by
            rw [pairwiseOverlap_cons_right, List.map_cons, List.sum_cons, hcol,
              pairwiseOverlap_cons_left, pairwiseOverlap_cons_left, hclamp]
            ring
          have hIH : sumIntervals (x' :: a') + sumIntervals b' -
              pairwiseOverlap (x' :: a') b' ≤ hi - y.«end» := by
            refine ih (x' :: a') b' y.«end» ?_ hay.2.2 ?_ ?_ ?_ hcb.tail
            · simp only [List.length_cons] at hlen ⊢
              omega
            · intro it hit
              rcases List.mem_cons.mp hit with rfl | hit
              · exact ⟨le_max_right _ _, max_le hax.2.1 (le_of_lt hc), hax.2.2⟩
              · exact ⟨by linarith [hpropA it hit],
                  (hma it (List.mem_cons_of_mem _ hit)).2.1,
                  (hma it (List.mem_cons_of_mem _ hit)).2.2⟩
            · refine List.chain'_cons'.mpr ⟨fun z hz => ?_, hca.tail⟩
              exact (List.chain'_cons'.mp hca).1 z hz
            · intro it hit
              exact ⟨by linarith [hpropB it hit], (hmb it (List.mem_cons_of_mem _ hit)).2.1,
                (hmb it (List.mem_cons_of_mem _ hit)).2.2⟩
          have hsx' : sumIntervals (x' :: a') =
              (x.«end» - max x.start y.«end») + sumIntervals a' := by
            rw [hx', sumIntervals_cons]
            have hh : (0:ℚ) ≤ x.«end» - max x.start y.«end» := by
              have := max_le hax.2.1 (le_of_lt hc)
              linarith
            dsimp only
            rw [max_eq_right hh]
          have hkey := key_ineq lo y.start y.«end» x.start x.«end» hay.1 hax.1 hay.2.1
            hax.2.1 (le_of_lt hc)
          rw [min_comm y.«end» x.«end», max_comm y.start x.start] at hkey
          rw [hsx, hsy, hpw]
          rw [hsx'] at hIH
          simp only [interLen] at hkey ⊢
          linarith

theorem pushMergedInterval_head_start (x : Interval) (l : List Interval) (next : Interval) :
    ∃ e t, pushMergedInterval (x :: l) next = ⟨x.start, e⟩ :: t := by
  cases l with
  | nil =>
    rw [pushMergedInterval_singleton]
    by_cases h : next.start ≤ x.«end»
    · exact ⟨max x.«end» next.«end», [], by rw [if_pos h]⟩
    · exact ⟨x.«end», [next], by rw [if_neg h]⟩
  | cons y t =>
    rw [pushMergedInterval_cons_cons]
    exact ⟨x.«end», pushMergedInterval (y :: t) next, rfl⟩

theorem pushMergedInterval_inv (lo hi : ℚ) (l : List Interval) (next : Interval)
    (hmem : ∀ it ∈ l, lo ≤ it.start ∧ it.start < it.«end» ∧ it.«end» ≤ hi)
    (hch : List.Chain' sep l)
    (hn : lo ≤ next.start ∧ next.start < next.«end» ∧ next.«end» ≤ hi) :
    (∀ it ∈ pushMergedInterval l next,
        lo ≤ it.start ∧ it.start < it.«end» ∧ it.«end» ≤ hi) ∧
    List.Chain' sep (pushMergedInterval l next) := by
  induction l with
  | nil =>
    rw [pushMergedInterval_nil]
    exact ⟨by simpa using hn, List.chain'_singleton _⟩
  | cons x rest ih =>
    have hx := hmem x (List.mem_cons_self _ _)
    cases rest with
    | nil =>
      rw [pushMergedInterval_singleton]
      by_cases h : next.start ≤ x.«end»
      · rw [if_pos h]
        refine ⟨?_, List.chain'_singleton _⟩
        intro it hit
        rcases List.mem_singleton.mp hit with rfl
        exact ⟨hx.1, lt_of_lt_of_le hx.2.1 (le_max_left _ _), max_le hx.2.2 hn.2.2⟩
      · rw [if_neg h]
        refine ⟨?_, ?_⟩
        · intro it hit
          rcases List.mem_cons.mp hit with rfl | hit
          · exact hx
          · rcases List.mem_singleton.mp hit with rfl
            exact hn
        · exact List.chain'_pair.mpr (lt_of_not_le h)
    | cons y t =>
      rw [pushMergedInterval_cons_cons]
      have hrec := ih (fun it hit => hmem it (List.mem_cons_of_mem _ hit)) hch.tail
      obtain ⟨e, t', ht'⟩ := pushMergedInterval_head_start y t next
      refine ⟨?_, ?_⟩
      · intro it hit
        rcases List.mem_cons.mp hit with rfl | hit
        · exact hx
        · exact hrec.1 it hit
      · refine List.chain'_cons'.mpr ⟨?_, hrec.2⟩
        intro z hz
        rw [ht'] at hz
        simp only [List.head?_cons, Option.mem_def, Option.some.injEq] at hz
        subst hz
        exact (List.chain'_cons.mp hch).1

theorem addUnknown_inv (lo hi : ℚ) (l : List Interval) (f t : ℚ)
    (hmem : ∀ it ∈ l, lo ≤ it.start ∧ it.start < it.«end» ∧ it.«end» ≤ hi)
    (hch : List.Chain' sep l) (hf : lo ≤ f) (ht : t ≤ hi) :
    (∀ it ∈ addUnknown l f t, lo ≤ it.start ∧ it.start < it.«end» ∧ it.«end» ≤ hi) ∧
    List.Chain' sep (addUnknown l f t) := by
  rw [addUnknown_eq]
  by_cases h : t ≤ f
  · rw [if_pos h]
    exact ⟨hmem, hch⟩
  · rw [if_neg h]
    exact pushMergedInterval_inv lo hi l ⟨f, t⟩ hmem hch ⟨hf, lt_of_not_le h, ht⟩

theorem processSegment_inv (lo hi intervalSec : ℚ) (lastCheck : Option Check)
    (l : List Interval) (segStart segEnd : ℚ)
    (hmem : ∀ it ∈ l, lo ≤ it.start ∧ it.start < it.«end» ∧ it.«end» ≤ hi)
    (hch : List.Chain' sep l) (hs : lo ≤ segStart) (he : segEnd ≤ hi) :
    (∀ it ∈ processSegment intervalSec lastCheck l segStart segEnd,
        lo ≤ it.start ∧ it.start < it.«end» ∧ it.«end» ≤ hi) ∧
    List.Chain' sep (processSegment intervalSec lastCheck l segStart segEnd) := by
  unfold processSegment
  by_cases h0 : segEnd ≤ segStart
  · rw [if_pos h0]
    exact ⟨hmem, hch⟩
  · rw [if_neg h0]
    cases lastCheck with
    | none => exact addUnknown_inv lo hi l segStart segEnd hmem hch hs he
    | some lc =>
      by_cases h1 : lc.checked_at + intervalSec ≤ segStart
      · simp only [h1, if_true]
        exact addUnknown_inv lo hi l segStart segEnd hmem hch hs he
      · simp only [h1, if_false]
        have hcov : segStart < min segEnd (lc.checked_at + intervalSec) :=
          lt_min (lt_of_not_le h0) (lt_of_not_le h1)
        have hcovhi : min segEnd (lc.checked_at + intervalSec) ≤ hi :=
          le_trans (min_le_left _ _) he
        by_cases h2 : lc.status = CheckStatus.unknown
        · simp only [h2, if_true]
          have hu1 := addUnknown_inv lo hi l segStart
            (min segEnd (lc.checked_at + intervalSec)) hmem hch hs hcovhi
          by_cases h3 : min segEnd (lc.checked_at + intervalSec) < segEnd
          · simp only [h3, if_true]
            exact addUnknown_inv lo hi _ _ segEnd hu1.1 hu1.2
              (le_trans hs (le_of_lt hcov)) he
          · simp only [h3, if_false]
            exact hu1
        · simp only [h2, if_false]
          by_cases h3 : min segEnd (lc.checked_at + intervalSec) < segEnd
          · simp only [h3, if_true]
            exact addUnknown_inv lo hi l _ segEnd hmem hch
              (le_trans hs (le_of_lt hcov)) he
          · simp only [h3, if_false]
            exact ⟨hmem, hch⟩

theorem buildLoop_inv (rs re ivl : ℚ) (checks : List Check) :
    ∀ (lastCheck : Option Check) (cursor : ℚ) (l : List Interval),
    (∀ it ∈ l, rs ≤ it.start ∧ it.start < it.«end» ∧ it.«end» ≤ re) →
    List.Chain' sep l → rs ≤ cursor →
    (∀ it ∈ buildLoop rs re ivl checks lastCheck cursor l,
        rs ≤ it.start ∧ it.start < it.«end» ∧ it.«end» ≤ re) ∧
    List.Chain' sep (buildLoop rs re ivl checks lastCheck cursor l) := by
  induction checks with
  | nil =>
    intro lastCheck cursor l hmem hch hcur
    exact processSegment_inv rs re ivl lastCheck l cursor re hmem hch hcur le_rfl
  | cons c rest ih =>
    intro lastCheck cursor l hmem hch hcur
    unfold buildLoop
    by_cases h1 : c.checked_at < rs
    · rw [if_pos h1]
      exact ih (some c) cursor l hmem hch hcur
    · rw [if_neg h1]
      by_cases h2 : re ≤ c.checked_at
      · rw [if_pos h2]
        exact processSegment_inv rs re ivl lastCheck l cursor re hmem hch hcur le_rfl
      · rw [if_neg h2]
        have hseg := processSegment_inv rs re ivl lastCheck l cursor c.checked_at
          hmem hch hcur (le_of_lt (lt_of_not_le h2))
        exact ih (some c) c.checked_at _ hseg.1 hseg.2 (le_of_not_lt h1)

theorem buildUnknownIntervals_inv (rs re ivl : ℚ) (checks : List Check) (h : rs < re) :
    (∀ it ∈ buildUnknownIntervals rs re ivl checks,
        rs ≤ it.start ∧ it.start < it.«end» ∧ it.«end» ≤ re) ∧
    List.Chain' sep (buildUnknownIntervals rs re ivl checks) := by
  unfold buildUnknownIntervals
  rw [if_neg (not_le.mpr h)]
  by_cases h2 : ivl ≤ 0
  · rw [if_pos h2]
    refine ⟨?_, List.chain'_singleton _⟩
    intro it hit
    rcases List.mem_singleton.mp hit with rfl
    exact ⟨le_rfl, h, le_rfl⟩
  · rw [if_neg h2]
    exact buildLoop_inv rs re ivl checks none rs [] (by simp) (by simp) le_rfl

theorem chain_sep_start_lt (l : List Interval)
    (hb : ∀ it ∈ l, it.start < it.«end») (hc : List.Chain' sep l) :
    List.Chain' (fun p q => p.start < q.start) l := by
  induction l with
  | nil => simp
  | cons x t ih =>
    refine List.chain'_cons'.mpr
      ⟨?_, ih (fun it hit => hb it (List.mem_cons_of_mem _ hit)) hc.tail⟩
    intro z hz
    exact lt_trans (hb x (List.mem_cons_self _ _)) ((List.chain'_cons'.mp hc).1 z hz)

/-- C2: with range `[1000, 1600)`, `interval_sec = 60` and a single `up`
check at `970` (a carry-over from before the range), the unknown set is
exactly `[1030, 1600)` — the straddling verdict covers `[1000, 1030)` and
expires at `validUntil = 1030` — and its summed length is `570`. -/
theorem straddling_verdict_s4 :
    buildUnknownIntervals 1000 1600 60 [⟨970, CheckStatus.up⟩] =
      [⟨1030, 1600⟩] ∧
    sumIntervals (buildUnknownIntervals 1000 1600 60 [⟨970, CheckStatus.up⟩]) = 570 := by
  constructor
  · norm_num [buildUnknownIntervals, buildLoop, processSegment, addUnknown_eq,
      up_eq_unknown_false, pushMergedInterval_nil, pushMergedInterval_singleton]
  · norm_num [buildUnknownIntervals, buildLoop, processSegment, addUnknown_eq,
      up_eq_unknown_false, pushMergedInterval_nil, pushMergedInterval_singleton, sumIntervals]

/-- C3 counterexample: `interval_sec = 5/2` is not a positive finite
integer, yet the classifier does not return the full range: with range
`[0, 10)` and an `up` check at `0` it returns `[5/2, 10)`, because the
degenerate-schedule guard in the code tests only finiteness and
positivity, not integrality. -/
theorem nonInteger_interval_not_degenerate :
    buildUnknownIntervals 0 10 (5 / 2) [⟨0, CheckStatus.up⟩] ≠ [⟨0, 10⟩] := by
  norm_num [buildUnknownIntervals, buildLoop, processSegment, addUnknown_eq,
    up_eq_unknown_false, pushMergedInterval_nil, pushMergedInterval_singleton,
    Interval.mk.injEq]

/-- C3 amended: the classifier returns the empty set whenever
`rangeEnd ≤ rangeStart`, and returns the full range as a single unknown
interval whenever `interval_sec ≤ 0` (non-positive; the non-finite case of
the source guard cannot arise for rationals).  A positive non-integer
`interval_sec` is not treated as degenerate. -/
theorem degenerate_schedule_amended (rs re ivl : ℚ) (checks : List Check) :
    (re ≤ rs → buildUnknownIntervals rs re ivl checks = []) ∧
    (ivl ≤ 0 → rs < re → buildUnknownIntervals rs re ivl checks = [⟨rs, re⟩]) := by
  constructor
  · intro h
    unfold buildUnknownIntervals
    rw [if_pos h]
  · intro h1 h2
    unfold buildUnknownIntervals
    rw [if_neg (not_le.mpr h2), if_pos h1]

theorem degenerate_schedule_amended_witness :
    buildUnknownIntervals 5 3 60 [] = [] ∧
    buildUnknownIntervals 0 10 (-1) [] = [⟨0, 10⟩] :=
  ⟨(degenerate_schedule_amended 5 3 60 []).1 (by norm_num),
   (degenerate_schedule_amended 0 10 (-1) []).2 (by norm_num) (by norm_num)⟩

/-- C4 counterexample: `mergeIntervals` does not drop an interval with
`end ≤ start`: merging `[{0, 0}]` yields `[{0, 0}]`, not the empty result
of merging the list with that interval removed. -/
theorem merge_keeps_degenerate_interval :
    mergeIntervals [⟨0, 0⟩] ≠ mergeIntervals [] := by
  norm_num [mergeIntervals, sortByStart, mergeRun, List.insertionSort]

/-- C4 amended: an interval with `end ≤ start` contributes zero to
`sumIntervals` wherever it occurs, and `ensureInterval` (the validator
through which every candidate unknown interval passes) drops it; but
`mergeIntervals` and `overlapSeconds` do not themselves drop such
intervals — their callers filter degenerate intervals beforehand.
(Non-finite endpoints cannot arise in the rational embedding.) -/
theorem degenerate_dropped_amended (pre xs : List Interval) (it : Interval)
    (h : it.«end» ≤ it.start) :
    sumIntervals (pre ++ it :: xs) = sumIntervals (pre ++ xs) ∧
    ensureInterval it = none := by
  constructor
  · rw [sumIntervals_eq, sumIntervals_eq, List.map_append, List.map_append, List.map_cons,
      List.sum_append, List.sum_append, List.sum_cons,
      max_eq_left (by linarith : it.«end» - it.start ≤ 0)]
    ring
  · unfold ensureInterval
    rw [if_pos h]

theorem degenerate_dropped_amended_witness :
    sumIntervals ([⟨0, 1⟩] ++ ⟨5, 3⟩ :: [⟨2, 4⟩]) = sumIntervals ([⟨0, 1⟩] ++ [⟨2, 4⟩]) ∧
    ensureInterval ⟨5, 3⟩ = none :=
  degenerate_dropped_amended [⟨0, 1⟩] [⟨2, 4⟩] ⟨5, 3⟩ (by norm_num)

/-- C7: `mergeIntervals` is idempotent on every input list, and its result
is ascending by `start` with each interval's start strictly greater than
the previous interval's end (no touching, no overlap). -/
theorem merge_idempotent_sorted_separated (xs : List Interval) :
    mergeIntervals (mergeIntervals xs) = mergeIntervals xs ∧
    List.Chain' (fun p q => p.start ≤ q.start) (mergeIntervals xs) ∧
    List.Chain' (fun p q => p.«end» < q.start) (mergeIntervals xs) :=
  ⟨mergeIntervals_idem xs, mergeIntervals_starts xs, mergeIntervals_chain xs⟩

/-- C8: on merged interval sets (proper intervals, ascending, strictly
separated) `overlapSeconds` is symmetric, despite the sweep advancing the
`a` pointer on ties. -/
theorem overlap_symmetric (a b : List Interval)
    (ha : (∀ it ∈ a, it.start < it.«end») ∧
      List.Chain' (fun p q => p.«end» < q.start) a)
    (hb : (∀ it ∈ b, it.start < it.«end») ∧
      List.Chain' (fun p q => p.«end» < q.start) b) :
    overlapSeconds a b = overlapSeconds b a := by
  rw [overlap_eq_pairwise (a.length + b.length) a b le_rfl
      (fun it hit => le_of_lt (ha.1 it hit)) ha.2
      (fun it hit => le_of_lt (hb.1 it hit)) hb.2,
    overlap_eq_pairwise (b.length + a.length) b a le_rfl
      (fun it hit => le_of_lt (hb.1 it hit)) hb.2
      (fun it hit => le_of_lt (ha.1 it hit)) ha.2,
    pairwiseOverlap_comm]

theorem overlap_symmetric_witness :
    overlapSeconds [⟨0, 2⟩] [⟨1, 3⟩] = overlapSeconds [⟨1, 3⟩] [⟨0, 2⟩] :=
  overlap_symmetric [⟨0, 2⟩] [⟨1, 3⟩]
    ⟨fun it hit => by rcases List.mem_singleton.mp hit with rfl; norm_num,
      List.chain'_singleton _⟩
    ⟨fun it hit => by rcases List.mem_singleton.mp hit with rfl; norm_num,
      List.chain'_singleton _⟩

/-- C9: for `rangeStart < rangeEnd`, positive `interval_sec` and a
chronologically sorted check list, every returned unknown interval
satisfies `rangeStart ≤ start < end ≤ rangeEnd`, and the returned list is
already merged: strictly ascending by start with each start strictly
greater than the previous end. -/
theorem buildUnknown_in_range_merged (rs re ivl : ℚ) (checks : List Check)
    (h1 : rs < re) (h2 : 0 < ivl)
    (hsorted : List.Chain' (fun c₁ c₂ => c₁.checked_at ≤ c₂.checked_at) checks) :
    (∀ it ∈ buildUnknownIntervals rs re ivl checks,
        rs ≤ it.start ∧ it.start < it.«end» ∧ it.«end» ≤ re) ∧
    List.Chain' (fun p q => p.start < q.start) (buildUnknownIntervals rs re ivl checks) ∧
    List.Chain' (fun p q => p.«end» < q.start) (buildUnknownIntervals rs re ivl checks) := by
  have h := buildUnknownIntervals_inv rs re ivl checks h1
  exact ⟨h.1, chain_sep_start_lt _ (fun it hit => (h.1 it hit).2.1) h.2, h.2⟩

theorem buildUnknown_in_range_merged_witness :
    (∀ it ∈ buildUnknownIntervals 0 100 60 [⟨10, CheckStatus.up⟩],
        (0:ℚ) ≤ it.start ∧ it.start < it.«end» ∧ it.«end» ≤ 100) ∧
    List.Chain' (fun p q => p.start < q.start)
      (buildUnknownIntervals 0 100 60 [⟨10, CheckStatus.up⟩]) ∧
    List.Chain' (fun p q => p.«end» < q.start)
      (buildUnknownIntervals 0 100 60 [⟨10, CheckStatus.up⟩]) :=
  buildUnknown_in_range_merged 0 100 60 [⟨10, CheckStatus.up⟩] (by norm_num) (by norm_num)
    (List.chain'_singleton _)

/-- C5: per-row freshness in the `/status` response: paused/maintenance
rows are never stale; otherwise a null `last_checked_at` is stale and a
non-null one is stale iff `now - last_checked_at > 2 * interval_sec`;
a stale row is exposed as `unknown` with `last_latency_ms` nulled, while
`last_checked_at` is always preserved. -/
theorem freshness_classifier_spec (now : ℚ) (r : PublicStatusMonitorRow) :
    ((toMonitorStatus r.state_status = MonitorStatus.paused ∨
        toMonitorStatus r.state_status = MonitorStatus.maintenance) →
      (statusEntry now r).is_stale = false) ∧
    (¬(toMonitorStatus r.state_status = MonitorStatus.paused ∨
        toMonitorStatus r.state_status = MonitorStatus.maintenance) →
      ((r.last_checked_at = none → (statusEntry now r).is_stale = true) ∧
       (∀ t, r.last_checked_at = some t →
          ((statusEntry now r).is_stale = true ↔ r.interval_sec * 2 < now - t)))) ∧
    ((statusEntry now r).is_stale = true →
      (statusEntry now r).status = MonitorStatus.unknown ∧
      (statusEntry now r).last_latency_ms = none) ∧
    (statusEntry now r).last_checked_at = r.last_checked_at := by
  by_cases hpm : toMonitorStatus r.state_status = MonitorStatus.paused ∨
      toMonitorStatus r.state_status = MonitorStatus.maintenance
  · refine ⟨fun _ => ?_, fun h => absurd hpm h, fun hstale => ?_, rfl⟩
    · simp [statusEntry, hpm]
    · simp [statusEntry, hpm] at hstale
  · refine ⟨fun h => absurd h hpm, fun _ => ⟨fun hnone => ?_, fun t ht => ?_⟩,
      fun hstale => ?_, rfl⟩
    · simp [statusEntry, hpm, hnone]
    · simp [statusEntry, hpm, ht, decide_eq_true_iff]
    · cases hlc : r.last_checked_at with
      | none => simp [statusEntry, hpm, hlc]
      | some t =>
        simp [statusEntry, hpm, hlc, decide_eq_true_iff] at hstale ⊢
        constructor <;> intro hle <;> linarith

theorem freshness_classifier_spec_witness :
    (statusEntry 10000 ⟨1, "m", "http", 60, some "down", some 9000, some 100⟩).is_stale = true ↔
      (60 : ℚ) * 2 < 10000 - 9000 := by
  have h := (freshness_classifier_spec 10000
    ⟨1, "m", "http", 60, some "down", some 9000, some 100⟩).2.1
    (by intro hc; rcases hc with hc | hc <;> simp [toMonitorStatus] at hc)
  exact h.2 9000 rfl

theorem overallStatus_priority (c : Counts) :
    (0 < c.down → overallStatus c = MonitorStatus.down) ∧
    (c.down = 0 → 0 < c.unknown → overallStatus c = MonitorStatus.unknown) ∧
    (c.down = 0 → c.unknown = 0 → 0 < c.maintenance →
      overallStatus c = MonitorStatus.maintenance) ∧
    (c.down = 0 → c.unknown = 0 → c.maintenance = 0 → 0 < c.up →
      overallStatus c = MonitorStatus.up) ∧
    (c.down = 0 → c.unknown = 0 → c.maintenance = 0 → c.up = 0 → 0 < c.paused →
      overallStatus c = MonitorStatus.paused) ∧
    (c.down = 0 → c.unknown = 0 → c.maintenance = 0 → c.up = 0 → c.paused = 0 →
      overallStatus c = MonitorStatus.unknown) := by
  refine ⟨fun h => ?_, fun h0 h => ?_, fun h0 h1 h => ?_, fun h0 h1 h2 h => ?_,
    fun h0 h1 h2 h3 h => ?_, fun h0 h1 h2 h3 h4 => ?_⟩ <;>
    simp [overallStatus, *]

/-- C6: the `overall_status` of every `/status` response follows the
strict top-down priority on the summary counts:
down, then unknown, then maintenance, then up, then paused, then unknown
when everything is zero. -/
theorem overall_status_priority (now : ℚ) (rows : List PublicStatusMonitorRow) :
    (0 < (statusResponse now rows).summary.down →
      (statusResponse now rows).overall_status = MonitorStatus.down) ∧
    ((statusResponse now rows).summary.down = 0 →
      0 < (statusResponse now rows).summary.unknown →
      (statusResponse now rows).overall_status = MonitorStatus.unknown) ∧
    ((statusResponse now rows).summary.down = 0 →
      (statusResponse now rows).summary.unknown = 0 →
      0 < (statusResponse now rows).summary.maintenance →
      (statusResponse now rows).overall_status = MonitorStatus.maintenance) ∧
    ((statusResponse now rows).summary.down = 0 →
      (statusResponse now rows).summary.unknown = 0 →
      (statusResponse now rows).summary.maintenance = 0 →
      0 < (statusResponse now rows).summary.up →
      (statusResponse now rows).overall_status = MonitorStatus.up) ∧
    ((statusResponse now rows).summary.down = 0 →
      (statusResponse now rows).summary.unknown = 0 →
      (statusResponse now rows).summary.maintenance = 0 →
      (statusResponse now rows).summary.up = 0 →
      0 < (statusResponse now rows).summary.paused →
      (statusResponse now rows).overall_status = MonitorStatus.paused) ∧
    ((statusResponse now rows).summary.down = 0 →
      (statusResponse now rows).summary.unknown = 0 →
      (statusResponse now rows).summary.maintenance = 0 →
      (statusResponse now rows).summary.up = 0 →
      (statusResponse now rows).summary.paused = 0 →
      (statusResponse now rows).overall_status = MonitorStatus.unknown) :=
  overallStatus_priority (tallyCounts (rows.map (statusEntry now)))

theorem overall_status_priority_witness :
    (statusResponse 10000 [⟨1, "m", "http", 60, some "down", some 9950,
      some 100⟩]).overall_status = MonitorStatus.down := by
  refine (overall_status_priority 10000 _).1 ?_
  norm_num [statusResponse, statusEntry, tallyCounts, bumpCount, toMonitorStatus]

theorem bumpCount_total (c : Counts) (s : MonitorStatus) :
    (bumpCount c s).up + (bumpCount c s).down + (bumpCount c s).maintenance +
      (bumpCount c s).paused + (bumpCount c s).unknown =
    c.up + c.down + c.maintenance + c.paused + c.unknown + 1 := by
  cases s <;> simp [bumpCount] <;> omega

theorem tally_total : ∀ (entries : List StatusMonitorEntry) (c : Counts),
    (entries.foldl (fun c m => bumpCount c m.status) c).up +
    (entries.foldl (fun c m => bumpCount c m.status) c).down +
    (entries.foldl (fun c m => bumpCount c m.status) c).maintenance +
    (entries.foldl (fun c m => bumpCount c m.status) c).paused +
    (entries.foldl (fun c m => bumpCount c m.status) c).unknown =
      c.up + c.down + c.maintenance + c.paused + c.unknown + entries.length := by
  intro entries
  induction entries with
  | nil => intro c; simp
  | cons e rest ih =>
    intro c
    rw [List.foldl_cons, List.length_cons, ih (bumpCount c e.status)]
    have := bumpCount_total c e.status
    omega

/-- C10: in every `/status` response the five summary counts sum to the
number of entries in the monitors array. -/
theorem summary_counts_sum (now : ℚ) (rows : List PublicStatusMonitorRow) :
    (statusResponse now rows).summary.up + (statusResponse now rows).summary.down +
    (statusResponse now rows).summary.maintenance +
    (statusResponse now rows).summary.paused +
    (statusResponse now rows).summary.unknown =
    (statusResponse now rows).monitors.length := by
  show (tallyCounts (rows.map (statusEntry now))).up +
    (tallyCounts (rows.map (statusEntry now))).down +
    (tallyCounts (rows.map (statusEntry now))).maintenance +
    (tallyCounts (rows.map (statusEntry now))).paused +
    (tallyCounts (rows.map (statusEntry now))).unknown =
    (rows.map (statusEntry now)).length
  unfold tallyCounts
  rw [tally_total]
  simp

theorem conservation_of_bounds (total down unk : ℚ)
    (htot : 0 ≤ total) (hdown : 0 ≤ down) (hunk : 0 ≤ unk) (hsum : down + unk ≤ total) :
    unk + down + max 0 (total - min total (down + unk)) = total ∧
    0 ≤ unk ∧ 0 ≤ down ∧
    0 ≤ max 0 (total - min total (down + unk)) ∧
    max 0 (total - min total (down + unk)) ≤ total ∧
    0 ≤ (if total = 0 then (0:ℚ) else max 0 (total - min total (down + unk)) / total * 100) ∧
    (if total = 0 then (0:ℚ) else max 0 (total - min total (down + unk)) / total * 100) ≤ 100 ∧
    max 0 (total - min total (down + unk)) + min total (down + unk) = total := by
  have hmin : min total (down + unk) = down + unk := min_eq_right hsum
  have hup : max 0 (total - (down + unk)) = total - (down + unk) :=
    max_eq_right (by linarith)
  rw [hmin, hup]
  refine ⟨by ring, hunk, hdown, by linarith, by linarith, ?_, ?_, by ring⟩
  · by_cases htz : total = 0
    · rw [if_pos htz]
    · rw [if_neg htz]
      have h0 : 0 < total := lt_of_le_of_ne htot (Ne.symm htz)
      have h1 : 0 ≤ (total - (down + unk)) / total := div_nonneg (by linarith) (le_of_lt h0)
      linarith
  · by_cases htz : total = 0
    · rw [if_pos htz]
      norm_num
    · rw [if_neg htz]
      have h0 : 0 < total := lt_of_le_of_ne htot (Ne.symm htz)
      have h1 : (total - (down + unk)) / total ≤ 1 :=
        (div_le_one h0).mpr (by linarith)
      linarith

theorem down_plus_unknown_le_total (rs re ivl : ℚ) (outs : List OutageRow)
    (checks : List CheckRow) :
    sumIntervals (mergeIntervals ((outs.map (fun r =>
        ({ start := max r.started_at rs,
           «end» := min (r.ended_at.getD re) re } : Interval))).filter
      (fun it => decide (it.start < it.«end»)))) +
    max 0 (sumIntervals (buildUnknownIntervals rs re ivl
        (checks.map (fun r =>
          ({ checked_at := r.checked_at, status := toCheckStatus r.status } : Check)))) -
      overlapSeconds (buildUnknownIntervals rs re ivl
        (checks.map (fun r =>
          ({ checked_at := r.checked_at, status := toCheckStatus r.status } : Check))))
        (mergeIntervals ((outs.map (fun r =>
            ({ start := max r.started_at rs,
               «end» := min (r.ended_at.getD re) re } : Interval))).filter
          (fun it => decide (it.start < it.«end»))))) ≤ max 0 (re - rs) := by
  set D : List Interval := mergeIntervals ((outs.map (fun r =>
      ({ start := max r.started_at rs,
         «end» := min (r.ended_at.getD re) re } : Interval))).filter
    (fun it => decide (it.start < it.«end»))) with hD0
  set U : List Interval := buildUnknownIntervals rs re ivl
    (checks.map (fun r =>
      ({ checked_at := r.checked_at, status := toCheckStatus r.status } : Check))) with hU0
  rcases lt_or_le rs re with hord | hord
  · have hmemD : ∀ it ∈ ((outs.map (fun r =>
        ({ start := max r.started_at rs,
           «end» := min (r.ended_at.getD re) re } : Interval))).filter
      (fun it => decide (it.start < it.«end»))),
        rs ≤ it.start ∧ it.start < it.«end» ∧ it.«end» ≤ re := by
      intro it hit
      simp only [List.mem_filter, List.mem_map] at hit
      obtain ⟨⟨r, _, rfl⟩, hd⟩ := hit
      rw [decide_eq_true_iff] at hd
      exact ⟨le_max_right _ _, hd, min_le_right _ _⟩
    have hDinv := mergeIntervals_properChainIn rs re _ hmemD
    rw [← hD0] at hDinv
    have hUinv := buildUnknownIntervals_inv rs re ivl
      (checks.map (fun r =>
        ({ checked_at := r.checked_at, status := toCheckStatus r.status } : Check))) hord
    rw [← hU0] at hUinv
    have hwD : ∀ it ∈ D, rs ≤ it.start ∧ it.start ≤ it.«end» ∧ it.«end» ≤ re :=
      fun it hit => ⟨(hDinv.1 it hit).1, le_of_lt (hDinv.1 it hit).2.1, (hDinv.1 it hit).2.2⟩
    have hwU : ∀ it ∈ U, rs ≤ it.start ∧ it.start ≤ it.«end» ∧ it.«end» ≤ re :=
      fun it hit => ⟨(hUinv.1 it hit).1, le_of_lt (hUinv.1 it hit).2.1, (hUinv.1 it hit).2.2⟩
    have hDle : sumIntervals D ≤ re - rs :=
      sum_le_of_chain re D rs (le_of_lt hord) hwD hDinv.2
    have hbr : overlapSeconds U D = pairwiseOverlap U D :=
      overlap_eq_pairwise (U.length + D.length) U D le_rfl
        (fun it hit => (hwU it hit).2.1) hUinv.2 (fun it hit => (hwD it hit).2.1) hDinv.2
    have hub : sumIntervals U + sumIntervals D - pairwiseOverlap U D ≤ re - rs :=
      union_bound re (U.length + D.length) U D rs le_rfl (le_of_lt hord)
        hwU hUinv.2 hwD hDinv.2
    have htot : max 0 (re - rs) = re - rs := max_eq_right (by linarith)
    rw [htot]
    rcases max_cases (0:ℚ) (sumIntervals U - overlapSeconds U D) with ⟨hm, _⟩ | ⟨hm, _⟩
    · rw [hm]
      linarith
    · rw [hm, hbr]
      linarith
  · have hUnil : U = [] := by
      rw [hU0]
      unfold buildUnknownIntervals
      rw [if_pos hord]
    have hfil : ((outs.map (fun r =>
        ({ start := max r.started_at rs,
           «end» := min (r.ended_at.getD re) re } : Interval))).filter
      (fun it => decide (it.start < it.«end»))) = [] := by
      rw [List.filter_eq_nil_iff]
      intro a ha
      simp only [List.mem_map] at ha
      obtain ⟨r, _, rfl⟩ := ha
      simp only [decide_eq_true_iff, not_lt]
      exact le_trans (min_le_right _ _) (le_trans hord (le_max_right _ _))
    have hDnil : D = [] := by
      rw [hD0, hfil]
      rfl
    rw [hUnil, hDnil]
    rw [show sumIntervals [] = 0 from rfl, overlapSeconds_nil_left]
    norm_num

/-- C1: every uptime response conserves time: the unknown, downtime and
uptime seconds are non-negative and sum to `total_sec`; `uptime_pct` lies
in `[0, 100]`; and equivalently
`uptime_sec + min(total_sec, downtime_sec + unknown_sec) = total_sec`
with `0 ≤ uptime_sec ≤ total_sec`. -/
theorem uptime_conservation (now created_at interval_sec : ℚ) (range : UptimeRange)
    (outageRows : List OutageRow) (checkRows : List CheckRow) :
    (uptimeHandler now created_at interval_sec range outageRows checkRows).unknown_sec +
      (uptimeHandler now created_at interval_sec range outageRows checkRows).downtime_sec +
      (uptimeHandler now created_at interval_sec range outageRows checkRows).uptime_sec =
      (uptimeHandler now created_at interval_sec range outageRows checkRows).total_sec ∧
    0 ≤ (uptimeHandler now created_at interval_sec range outageRows checkRows).unknown_sec ∧
    0 ≤ (uptimeHandler now created_at interval_sec range outageRows checkRows).downtime_sec ∧
    0 ≤ (uptimeHandler now created_at interval_sec range outageRows checkRows).uptime_sec ∧
    (uptimeHandler now created_at interval_sec range outageRows checkRows).uptime_sec ≤
      (uptimeHandler now created_at interval_sec range outageRows checkRows).total_sec ∧
    0 ≤ (uptimeHandler now created_at interval_sec range outageRows checkRows).uptime_pct ∧
    (uptimeHandler now created_at interval_sec range outageRows checkRows).uptime_pct ≤ 100 ∧
    (uptimeHandler now created_at interval_sec range outageRows checkRows).uptime_sec +
      min (uptimeHandler now created_at interval_sec range outageRows checkRows).total_sec
        ((uptimeHandler now created_at interval_sec range outageRows checkRows).downtime_sec +
          (uptimeHandler now created_at interval_sec range outageRows checkRows).unknown_sec) =
      (uptimeHandler now created_at interval_sec range outageRows checkRows).total_sec := by
  exact conservation_of_bounds _ _ _ (le_max_left _ _) (sumIntervals_nonneg _)
    (le_max_left _ _)
    (down_plus_unknown_le_total
      (max ((((⌊now / 60⌋ : ℤ) : ℚ) * 60) - rangeToSeconds range) created_at)
      (((⌊now / 60⌋ : ℤ) : ℚ) * 60) interval_sec outageRows checkRows)

end Uptimer
